import Mathlib

/-!
Verification of the core of the crop rope library: a shallow embedding of
the B-tree engine (tree/node_internal.rs, tree/node_leaf.rs, tree/node.rs,
tree/tree.rs) and of the rope chunk machinery (rope/rope_chunk.rs), with
theorems settling the specification claims.

Strings are embedded as lists of bytes (List Nat); UTF-8 boundary logic is
translated byte-for-byte from the source.
-/

set_option maxRecDepth 4000

/-- A byte of a UTF-8 string, embedded as a natural number below 256. -/
abbrev Byte := Nat

/-- ChunkSummary from rope/rope_chunk.rs: byte count and LF count. -/
structure ChunkSummary where
  bytes : Nat
  lineBreaks : Nat
deriving DecidableEq, Repr

instance : Zero ChunkSummary := ⟨⟨0, 0⟩⟩

instance : Add ChunkSummary :=
  ⟨fun a b => ⟨a.bytes + b.bytes, a.lineBreaks + b.lineBreaks⟩⟩

/-- Subtraction mirrors the SubAssign impl; on Nat components it is the
truncated subtraction, which agrees with usize subtraction whenever the
subtrahend was previously added in (the only way the code uses it). -/
instance : Sub ChunkSummary :=
  ⟨fun a b => ⟨a.bytes - b.bytes, a.lineBreaks - b.lineBreaks⟩⟩

instance : Inhabited ChunkSummary := ⟨0⟩

theorem ChunkSummary.add_def (a b : ChunkSummary) :
    a + b = ⟨a.bytes + b.bytes, a.lineBreaks + b.lineBreaks⟩ := rfl

theorem ChunkSummary.sub_def (a b : ChunkSummary) :
    a - b = ⟨a.bytes - b.bytes, a.lineBreaks - b.lineBreaks⟩ := rfl

theorem ChunkSummary.zero_def : (0 : ChunkSummary) = ⟨0, 0⟩ := rfl

instance : AddCommMonoid ChunkSummary where
  add_assoc a b c := by
    simp [ChunkSummary.add_def, Nat.add_assoc]
  zero_add a := by simp [ChunkSummary.add_def, ChunkSummary.zero_def]
  add_zero a := by simp [ChunkSummary.add_def, ChunkSummary.zero_def]
  add_comm a b := by simp [ChunkSummary.add_def, Nat.add_comm]
  nsmul := nsmulRec

/-- The carriage-return byte. -/
def crByte : Byte := 13

/-- The line-feed byte. -/
def lfByte : Byte := 10

/-- True of UTF-8 continuation bytes (0x80..0xBF); a position inside a
string is a char boundary exactly when the byte there is not one. -/
def isUtf8Cont (b : Byte) : Bool := 128 ≤ b && b < 192

/-- Summary of a chunk: its byte length and its count of LF bytes
(RopeChunk::summarize; line breaks are counted by str_indices lines_lf,
that is as occurrences of the byte 0x0A). -/
def summarizeChunk (s : List Byte) : ChunkSummary :=
  ⟨s.length, (s.filter (fun b => b = lfByte)).length⟩

/-- Structural worker for the boundary-extension loop; the first argument
counts the remaining positions (s.length - i), so the recursion is
structural and the definition evaluates by reduction. -/
def extendToBoundaryGo (s : List Byte) : Nat → Nat → Nat
  | 0, i => i
  | k + 1, i => if isUtf8Cont (s.getD i 0) then extendToBoundaryGo s k (i + 1) else i

/-- The while loop of RopeChunkIter::next: starting from a candidate cut
position, move forward until the cut is at a UTF-8 char boundary. On the
region the code reaches (candidate ≤ length) the loop guard
!is_char_boundary(i) is equivalent to i < len ∧ continuation (s[i]), and
the loop always stops by i = length; the countdown makes that explicit. -/
def extendToBoundary (s : List Byte) (i : Nat) : Nat :=
  extendToBoundaryGo s (s.length - i) i

theorem extendToBoundaryGo_ge (s : List Byte) (k i : Nat) :
    i ≤ extendToBoundaryGo s k i := by
  induction k generalizing i with
  | zero => exact le_refl i
  | succ k ih =>
    simp only [extendToBoundaryGo]
    split
    · exact le_trans (Nat.le_succ i) (ih (i + 1))
    · exact le_refl i

theorem extendToBoundary_ge (s : List Byte) (i : Nat) :
    i ≤ extendToBoundary s i :=
  extendToBoundaryGo_ge s (s.length - i) i

theorem extendToBoundaryGo_le (s : List Byte) (k i : Nat) (h : i + k ≤ s.length) :
    extendToBoundaryGo s k i ≤ s.length := by
  induction k generalizing i with
  | zero => simp only [extendToBoundaryGo]; omega
  | succ k ih =>
    simp only [extendToBoundaryGo]
    split
    · exact ih (i + 1) (by omega)
    · omega

theorem extendToBoundary_le (s : List Byte) (i : Nat) (h : i ≤ s.length) :
    extendToBoundary s i ≤ s.length :=
  extendToBoundaryGo_le s (s.length - i) i (by omega)

/-- One step of RopeChunkIter::next: returns none when the string is
empty, otherwise the produced chunk and the remaining suffix. -/
def ropeChunkNext (maxB : Nat) (s : List Byte) : Option (List Byte × List Byte) :=
  if s.length = 0 then none
  else if maxB ≤ s.length then
    let b1 := extendToBoundary s maxB
    let b2 :=
      if s.getD (b1 - 1) 0 = crByte ∧ b1 + 1 < s.length ∧ s.getD b1 0 = lfByte
      then b1 + 1 else b1
    some (s.take b2, s.drop b2)
  else some (s, [])

/-- Fuelled iteration of RopeChunkIter; fuel = length of the input + 1 is
always enough when maxB ≥ 1 since every step consumes at least one byte. -/
def ropeChunksFuel (maxB : Nat) : Nat → List Byte → List (List Byte)
  | 0, _ => []
  | fuel + 1, s =>
    match ropeChunkNext maxB s with
    | none => []
    | some (c, rest) => c :: ropeChunksFuel maxB fuel rest

/-- All chunks yielded by RopeChunkIter on the given string. -/
def ropeChunks (maxB : Nat) (s : List Byte) : List (List Byte) :=
  ropeChunksFuel maxB (s.length + 1) s

/-- ExactSizeIterator::len for RopeChunkIter: 2 when the remaining string
is longer than max_bytes, 1 otherwise. -/
def ropeChunkIterLen (maxB : Nat) (s : List Byte) : Nat :=
  if maxB < s.length then 2 else 1

example : ropeChunks 4 [97, 98, 99, 13, 10] = [[97, 98, 99, 13], [10]] := by decide

example : ropeChunks 4 [97, 98, 13, 10, 99, 100] = [[97, 98, 13, 10], [99, 100]] := by
  decide

example : ropeChunks 4 [97, 240, 159, 159, 166] = [[97, 240, 159, 159, 166]] := by
  decide

/-- Structural worker moving a split position backward to the previous
UTF-8 boundary (mirror image of extendToBoundaryGo). -/
def retractToBoundary (s : List Byte) : Nat → Nat
  | 0 => 0
  | i + 1 =>
    if i + 1 < s.length ∧ isUtf8Cont (s.getD (i + 1) 0) then retractToBoundary s i
    else i + 1

theorem retractToBoundary_le (s : List Byte) (i : Nat) : retractToBoundary s i ≤ i := by
  induction i with
  | zero => exact le_refl 0
  | succ i ih =>
    simp only [retractToBoundary]
    split
    · exact le_trans ih (Nat.le_succ i)
    · exact le_refl (i + 1)

/-- Modelled from the spec: the helper balance_left_with_right lives in
rope/utils.rs, which is not part of src. Following §4.3 of the spec, it
moves bytes from the start of the right slice into the left slice until
the left meets min_bytes, adjusting the split position forward to the
next UTF-8 boundary and, if that boundary would sit between a CR and an
LF, one more byte forward. Only the texts are modelled; the summaries the
source carries alongside are determined by the texts. -/
def balance_left_with_right (minB : Nat) (l r : List Byte) : List Byte × List Byte :=
  let missing := minB - l.length
  let s1 := extendToBoundary r missing
  let s2 := if r.getD (s1 - 1) 0 = crByte ∧ r.getD s1 0 = lfByte then s1 + 1 else s1
  (l ++ r.take s2, r.drop s2)

/-- Modelled from the spec: the helper balance_right_with_left lives in
rope/utils.rs, which is not part of src. Following §4.3 of the spec, it
moves bytes from the end of the left slice into the front of the right
slice until the right meets min_bytes, with the symmetric boundary rule:
the split position is adjusted backward to the previous UTF-8 boundary
and one more byte backward when it would sit between a CR and an LF. -/
def balance_right_with_left (minB : Nat) (l r : List Byte) : List Byte × List Byte :=
  let missing := minB - r.length
  let s1 := retractToBoundary l (l.length - missing)
  let s2 := if l.getD (s1 - 1) 0 = crByte ∧ l.getD s1 0 = lfByte then s1 - 1 else s1
  (l.take s2, l.drop s2 ++ r)

/-- RopeChunk::balance_slices from rope/rope_chunk.rs, on texts: returns
the left chunk and, unless the two inputs were merged, the right chunk. -/
def balance_slices (minB maxB : Nat) (l r : List Byte) : List Byte × Option (List Byte) :=
  if minB ≤ l.length ∧ minB ≤ r.length then (l, some r)
  else if l.length + r.length ≤ maxB then (l ++ r, none)
  else if l.length < minB then
    let p := balance_left_with_right minB l r
    (p.1, some p.2)
  else
    let p := balance_right_with_left minB l r
    (p.1, some p.2)

example :
    balance_slices 2 4 [97] [240, 159, 159, 166] =
      ([97, 240, 159, 159, 166], some []) := by decide

example : balance_slices 2 4 [97, 98, 99, 100] [101] = ([97, 98, 99], some [100, 101]) := by
  decide

example : balance_slices 2 4 [97, 98, 99] [100] = ([97, 98, 99, 100], none) := by
  decide

/-- A node of the B-tree (tree/node.rs): either a leaf (an Lnode, owning a
value and its cached summary) or an internal node (an Inode from
tree/node_internal.rs, owning its children together with the cached
summary, depth, and leaf count). -/
inductive NodeT (L : Type) where
  | leaf (value : L) (summary : ChunkSummary)
  | internal (children : List (NodeT L)) (summary : ChunkSummary)
      (depth : Nat) (leafCount : Nat)

/-- Depth of a node, delegated to the variant per §3 of the spec (node.rs
in src predates the delegating accessors); leaves have depth 0. -/
def NodeT.depth {L : Type} : NodeT L → Nat
  | .leaf _ _ => 0
  | .internal _ _ d _ => d

/-- Cached summary of a node (Lnode::summary / Inode::summary). -/
def NodeT.cachedSummary {L : Type} : NodeT L → ChunkSummary
  | .leaf _ s => s
  | .internal _ s _ _ => s

/-- Cached leaf count of a node: 1 for a leaf, the cached field for an
inode. -/
def NodeT.cachedLeafCount {L : Type} : NodeT L → Nat
  | .leaf _ _ => 1
  | .internal _ _ _ lc => lc

/-- Summary accumulated over a sequence of pushes, as Inode::push does
with summary += child.summary(). -/
def sumSummaries {L : Type} (cs : List (NodeT L)) : ChunkSummary :=
  cs.foldl (fun a c => a + c.cachedSummary) 0

/-- Leaf count accumulated over a sequence of pushes. -/
def sumLeafCounts {L : Type} (cs : List (NodeT L)) : Nat :=
  cs.foldl (fun a c => a + c.cachedLeafCount) 0

/-- Depth an inode ends up with after from_children: Inode::empty starts
at depth 1 and the first push overwrites it with the child depth + 1. -/
def childrenDepth {L : Type} : List (NodeT L) → Nat
  | [] => 1
  | c :: _ => c.depth + 1

/-- Inode::from_children: push every child, accumulating summary and leaf
count. -/
def Inode.fromChildren {L : Type} (cs : List (NodeT L)) : NodeT L :=
  .internal cs (sumSummaries cs) (childrenDepth cs) (sumLeafCounts cs)

/-- The per-step take rule of ChildSegmenter::next, for r remaining nodes
and bounds m, M. -/
def segTake (m M r : Nat) : Nat :=
  if M < r then (if m ≤ r - M then M else r - m) else r

/-- Fuelled ChildSegmenter iteration: group the list by the take rule;
any fuel of at least the list length is enough because each step takes at
least one element whenever the bounds are sane. -/
def segmentFuel {α : Type} (m M : Nat) : Nat → List α → List (List α)
  | 0, _ => []
  | _ + 1, [] => []
  | fuel + 1, x :: xs =>
    (x :: xs).take (segTake m M (xs.length + 1)) ::
      segmentFuel m M fuel ((x :: xs).drop (segTake m M (xs.length + 1)))

/-- The groups of children produced by running ChildSegmenter to
exhaustion on the given list. -/
def childSegments {α : Type} (m M : Nat) (l : List α) : List (List α) :=
  segmentFuel m M l.length l

/-- One grouping pass of Inode::from_nodes: run ChildSegmenter and wrap
each of its groups into an inode (via from_children). -/
def segmentNodes {L : Type} (N : Nat) (ns : List (NodeT L)) : List (NodeT L) :=
  (childSegments (N / 2) N ns).map Inode.fromChildren

/-- The while loop of Inode::from_nodes: keep grouping while more than
max_children nodes remain. -/
def fromNodesLoop {L : Type} (N : Nat) : Nat → List (NodeT L) → List (NodeT L)
  | 0, ns => ns
  | fuel + 1, ns => if N < ns.length then fromNodesLoop N fuel (segmentNodes N ns) else ns

/-- Inode::from_nodes: group down to at most max_children nodes, then
build the final inode from them. -/
def Inode.fromNodes {L : Type} (N : Nat) (ns : List (NodeT L)) : NodeT L :=
  Inode.fromChildren (fromNodesLoop N ns.length ns)

/-- Lnode::from(value) (Leaf::from_value): a leaf caching the summary of
its value. -/
def Lnode.fromValue {L : Type} (sz : L → ChunkSummary) (v : L) : NodeT L :=
  .leaf v (sz v)

/-- Inode::from_leaves: wrap every value into a leaf node and run
from_nodes. -/
def Inode.fromLeaves {L : Type} (N : Nat) (sz : L → ChunkSummary) (ls : List L) : NodeT L :=
  Inode.fromNodes N (ls.map (Lnode.fromValue sz))

/-- The two panic sites reachable from Tree::from_leaves: the explicit
empty-iterator panic, and the unwrap of next() in the one-leaf branch. -/
inductive FromLeavesErr where
  | emptyIter
  | unwrapNone
deriving DecidableEq, Repr

/-- Tree::from_leaves on an explicit iterator, as (reported ExactSizeIterator
length, yielded items): the length-0 and length-1 tests consult the reported
length, while the items consumed are the actually yielded ones. -/
def Tree.fromLeavesIter {L : Type} (N : Nat) (sz : L → ChunkSummary)
    (reported : Nat) (items : List L) : Except FromLeavesErr (NodeT L) :=
  if reported = 0 then .error .emptyIter
  else if reported = 1 then
    match items with
    | [] => .error .unwrapNone
    | v :: _ => .ok (Lnode.fromValue sz v)
  else .ok (Inode.fromLeaves N sz items)

/-- Tree::from_leaves fed by an honest iterator (reported length equals
the number of yielded items). -/
def Tree.fromLeaves {L : Type} (N : Nat) (sz : L → ChunkSummary) (leaves : List L) :
    Except FromLeavesErr (NodeT L) :=
  Tree.fromLeavesIter N sz leaves.length leaves

/-- Combined effect of Inode::drain(start..stop) plus the Drain iterator
being dropped, on an inode with the given fields: the drained children
are children[start..stop], their summaries and leaf counts are subtracted
from the cached fields up front, and on drop the gap is closed. Returns
the drained children and the resulting inode. -/
def Inode.drainRange {L : Type} (cs : List (NodeT L)) (s : ChunkSummary)
    (d lc : Nat) (start stop : Nat) : List (NodeT L) × NodeT L :=
  let drained := (cs.take stop).drop start
  let s2 := drained.foldl (fun a c => a - c.cachedSummary) s
  let lc2 := drained.foldl (fun a c => a - c.cachedLeafCount) lc
  (drained, .internal (cs.take start ++ cs.drop stop) s2 d lc2)

mutual

/-- Node::summarize from tree/node.rs: a leaf hands back its cached
summary; an inode recomputes by summing its children recursively, with
the exact cases of the source match on (first, second). -/
def NodeT.summarize {L : Type} : NodeT L → ChunkSummary
  | .leaf _ s => s
  | .internal [] _ _ _ => 0
  | .internal [c] _ _ _ => NodeT.summarize c
  | .internal (c1 :: c2 :: rest) _ _ _ =>
    NodeT.sumSummarize rest (NodeT.summarize c1 + NodeT.summarize c2)

/-- The accumulation loop inside Node::summarize over the remaining
children. -/
def NodeT.sumSummarize {L : Type} : List (NodeT L) → ChunkSummary → ChunkSummary
  | [], acc => acc
  | c :: cs, acc => NodeT.sumSummarize cs (acc + NodeT.summarize c)

end

mutual

/-- Decidable form of Inode::assert_invariants, checked recursively on a
whole subtree: every internal node has between m and M children, caches
the sum of its children's summaries and leaf counts, and every child
lives at depth one below it. -/
def NodeT.invB {L : Type} (m M : Nat) : NodeT L → Bool
  | .leaf _ _ => true
  | .internal cs s d lc =>
    decide (m ≤ cs.length) && decide (cs.length ≤ M) &&
      decide (s = sumSummaries cs) && decide (lc = sumLeafCounts cs) &&
      NodeT.allInvB m M d cs

/-- Conjunction of invB over a list of children at expected depth d - 1. -/
def NodeT.allInvB {L : Type} (m M d : Nat) : List (NodeT L) → Bool
  | [] => true
  | c :: cs => decide (c.depth + 1 = d) && NodeT.invB m M c && NodeT.allInvB m M d cs

end

example :
    Inode.fromLeaves 4 summarizeChunk [[97, 98], [99, 100], [101]] =
      NodeT.internal
        [NodeT.leaf [97, 98] ⟨2, 0⟩, NodeT.leaf [99, 100] ⟨2, 0⟩,
          NodeT.leaf [101] ⟨1, 0⟩] ⟨5, 0⟩ 1 3 := rfl

theorem foldl_add_init {β S : Type} [AddCommMonoid S] (g : β → S) (cs : List β) (a : S) :
    cs.foldl (fun x c => x + g c) a = a + cs.foldl (fun x c => x + g c) 0 := by
  induction cs generalizing a with
  | nil => simp
  | cons c cs ih =>
    simp only [List.foldl_cons]
    rw [ih (a + g c), ih (0 + g c), zero_add, add_assoc]

theorem sumSummaries_cons {L : Type} (c : NodeT L) (cs : List (NodeT L)) :
    sumSummaries (c :: cs) = c.cachedSummary + sumSummaries cs := by
  unfold sumSummaries
  simp only [List.foldl_cons]
  rw [foldl_add_init, zero_add]

theorem sumSummaries_nil {L : Type} : sumSummaries ([] : List (NodeT L)) = 0 := rfl

theorem sumLeafCounts_cons {L : Type} (c : NodeT L) (cs : List (NodeT L)) :
    sumLeafCounts (c :: cs) = c.cachedLeafCount + sumLeafCounts cs := by
  unfold sumLeafCounts
  simp only [List.foldl_cons]
  rw [foldl_add_init, zero_add]

theorem sumLeafCounts_nil {L : Type} : sumLeafCounts ([] : List (NodeT L)) = 0 := rfl

theorem segTake_le_r (m M r : Nat) : segTake m M r ≤ r := by
  unfold segTake
  split <;> [skip; omega]
  split <;> omega

theorem segTake_pos (m M r : Nat) (hM : 1 ≤ M) (hmM : m ≤ M) (hr : 1 ≤ r) :
    1 ≤ segTake m M r := by
  unfold segTake
  split <;> [skip; omega]
  split <;> omega

theorem segTake_ge (m M r : Nat) (h2m : 2 * m ≤ M + 1) (hmr : m ≤ r) :
    m ≤ segTake m M r := by
  unfold segTake
  split <;> [skip; omega]
  split <;> omega

theorem segTake_le_M (m M r : Nat) : segTake m M r ≤ M := by
  unfold segTake
  split <;> [skip; omega]
  split <;> omega

theorem segTake_rem (m M r : Nat) (hmr : m ≤ r) :
    r - segTake m M r = 0 ∨ m ≤ r - segTake m M r := by
  unfold segTake
  split <;> [skip; omega]
  split <;> omega

theorem segmentFuel_nil {α : Type} (m M fuel : Nat) :
    segmentFuel m M fuel ([] : List α) = [] := by
  cases fuel <;> rfl

theorem segmentFuel_join {α : Type} (m M : Nat) (hM : 1 ≤ M) (hmM : m ≤ M) :
    ∀ (fuel : Nat) (l : List α), l.length ≤ fuel →
      (segmentFuel m M fuel l).flatten = l := by
  intro fuel
  induction fuel with
  | zero =>
    intro l h
    have : l = [] := List.length_eq_zero.mp (Nat.le_zero.mp h)
    subst this
    rfl
  | succ fuel ih =>
    intro l h
    match l with
    | [] => rfl
    | x :: xs =>
      simp only [segmentFuel, List.flatten_cons]
      have hpos : 1 ≤ segTake m M (xs.length + 1) :=
        segTake_pos m M _ hM hmM (by omega)
      have hlen : ((x :: xs).drop (segTake m M (xs.length + 1))).length ≤ fuel := by
        simp only [List.length_drop, List.length_cons]
        have := h
        simp only [List.length_cons] at this
        omega
      rw [ih _ hlen, List.take_append_drop]

theorem segmentFuel_groups {α : Type} (m M : Nat) (hm : 2 ≤ m) (hmM : m ≤ M)
    (h2m : 2 * m ≤ M + 1) :
    ∀ (fuel : Nat) (l : List α), l.length ≤ fuel → m ≤ l.length →
      ∀ g ∈ segmentFuel m M fuel l, m ≤ g.length ∧ g.length ≤ M := by
  intro fuel
  induction fuel with
  | zero => intro l h hm2; omega
  | succ fuel ih =>
    intro l h hml g hg
    match l with
    | [] => simp at hml; omega
    | x :: xs =>
      simp only [segmentFuel, List.mem_cons] at hg
      have hr : m ≤ xs.length + 1 := by simpa using hml
      have htle : segTake m M (xs.length + 1) ≤ xs.length + 1 := segTake_le_r m M _
      rcases hg with hg | hg
      · subst hg
        constructor
        · rw [List.length_take]
          simp only [List.length_cons]
          have := segTake_ge m M (xs.length + 1) h2m hr
          omega
        · rw [List.length_take]
          have := segTake_le_M m M (xs.length + 1)
          omega
      · have hrem := segTake_rem m M (xs.length + 1) hr
        rcases hrem with h0 | hge
        · have : (x :: xs).drop (segTake m M (xs.length + 1)) = [] := by
            apply List.eq_nil_of_length_eq_zero
            simp only [List.length_drop, List.length_cons]
            omega
          rw [this, segmentFuel_nil] at hg
          simp at hg
        · apply ih _ _ _ g hg
          · simp only [List.length_drop, List.length_cons]
            simp only [List.length_cons] at h
            have := segTake_pos m M (xs.length + 1) (by omega) hmM (by omega)
            omega
          · simp only [List.length_drop, List.length_cons]
            omega

theorem length_mul_le_join {α : Type} (m : Nat) (gs : List (List α))
    (h : ∀ g ∈ gs, m ≤ g.length) : gs.length * m ≤ gs.flatten.length := by
  induction gs with
  | nil => simp
  | cons g gs ih =>
    simp only [List.flatten_cons, List.length_append, List.length_cons]
    have h1 := h g (List.mem_cons_self g gs)
    have h2 := ih (fun g hg => h g (List.mem_cons_of_mem _ hg))
    have : (gs.length + 1) * m = gs.length * m + m := by ring
    omega

theorem segmentFuel_length_lt {α : Type} (m M : Nat) (hm : 2 ≤ m) (hmM : m ≤ M)
    (h2m : 2 * m ≤ M + 1) (fuel : Nat) (l : List α) (hf : l.length ≤ fuel)
    (hMl : M < l.length) : (segmentFuel m M fuel l).length < l.length := by
  have hgroups := segmentFuel_groups m M hm hmM h2m fuel l hf (by omega)
  have hjoin := segmentFuel_join m M (by omega) hmM fuel l hf
  have hcount :=
    length_mul_le_join m (segmentFuel m M fuel l) (fun g hg => (hgroups g hg).1)
  rw [hjoin] at hcount
  have : (segmentFuel m M fuel l).length * 2 ≤ (segmentFuel m M fuel l).length * m :=
    Nat.mul_le_mul_left _ hm
  omega

theorem segmentFuel_ne_nil {α : Type} (m M fuel : Nat) (x : α) (xs : List α)
    (hf : 1 ≤ fuel) : 1 ≤ (segmentFuel m M fuel (x :: xs)).length := by
  match fuel with
  | 0 => omega
  | f + 1 => simp [segmentFuel]

theorem segmentFuel_stable {α : Type} (m M : Nat) (hM : 1 ≤ M) (hmM : m ≤ M)
    (fuel fuel2 : Nat) (l : List α) (h1 : l.length ≤ fuel) (h2 : l.length ≤ fuel2) :
    segmentFuel m M fuel l = segmentFuel m M fuel2 l := by
  match fuel, fuel2, l with
  | _, _, [] => rw [segmentFuel_nil, segmentFuel_nil]
  | 0, _, x :: xs => simp only [List.length_cons] at h1; omega
  | _ + 1, 0, x :: xs => simp only [List.length_cons] at h2; omega
  | f + 1, f2 + 1, x :: xs =>
    simp only [segmentFuel]
    congr 1
    have hpos : 1 ≤ segTake m M (xs.length + 1) :=
      segTake_pos m M _ hM hmM (by omega)
    have hlen : ((x :: xs).drop (segTake m M (xs.length + 1))).length < (x :: xs).length := by
      simp only [List.length_drop, List.length_cons]
      omega
    apply segmentFuel_stable m M hM hmM f f2 _ ?_ ?_
    · simp only [List.length_cons] at h1
      simp only [List.length_drop, List.length_cons]
      omega
    · simp only [List.length_cons] at h2
      simp only [List.length_drop, List.length_cons]
      omega
termination_by l.length

theorem childSegments_step {α : Type} (m M : Nat) (hM : 1 ≤ M) (hmM : m ≤ M)
    (x : α) (xs : List α) :
    childSegments m M (x :: xs) =
      (x :: xs).take (segTake m M (xs.length + 1)) ::
        childSegments m M ((x :: xs).drop (segTake m M (xs.length + 1))) := by
  unfold childSegments
  conv =>
    lhs
    simp only [List.length_cons, segmentFuel]
  congr 1
  apply segmentFuel_stable m M hM hmM
  · simp only [List.length_drop, List.length_cons]
    have := segTake_pos m M (xs.length + 1) hM hmM (by omega)
    omega
  · exact le_refl _

theorem segmentFuel_two_le {α : Type} (m M : Nat) (hm : 2 ≤ m) (hmM : m ≤ M)
    (fuel : Nat) (l : List α) (hf : l.length ≤ fuel) (hMl : M < l.length) :
    2 ≤ (segmentFuel m M fuel l).length := by
  match fuel, l with
  | 0, l => omega
  | fuel + 1, [] => simp only [List.length_nil] at hMl; omega
  | fuel + 1, x :: xs =>
    simp only [segmentFuel, List.length_cons]
    have hle : segTake m M (xs.length + 1) ≤ M := segTake_le_M m M _
    have hlen : M < xs.length + 1 := by simpa using hMl
    have hrest : (x :: xs).drop (segTake m M (xs.length + 1)) ≠ [] := by
      intro hnil
      have := congrArg List.length hnil
      simp only [List.length_drop, List.length_cons, List.length_nil] at this
      omega
    match hx : (x :: xs).drop (segTake m M (xs.length + 1)), hrest with
    | y :: ys, _ =>
      have hfy : 1 ≤ fuel := by
        have := congrArg List.length hx
        simp only [List.length_drop, List.length_cons] at this
        simp only [List.length_cons] at hf
        have hpos := segTake_pos m M (xs.length + 1) (by omega) hmM (by omega)
        omega
      have := segmentFuel_ne_nil m M fuel y ys hfy
      omega



theorem allInvB_iff {L : Type} (m M d : Nat) (cs : List (NodeT L)) :
    NodeT.allInvB m M d cs = true ↔
      ∀ c ∈ cs, c.depth + 1 = d ∧ NodeT.invB m M c = true := by
  induction cs with
  | nil => simp [NodeT.allInvB]
  | cons c cs ih =>
    simp only [NodeT.allInvB, Bool.and_eq_true, decide_eq_true_eq, ih,
      List.forall_mem_cons, and_assoc]

theorem invB_internal_iff {L : Type} (m M : Nat) (cs : List (NodeT L))
    (s : ChunkSummary) (d lc : Nat) :
    NodeT.invB m M (.internal cs s d lc) = true ↔
      m ≤ cs.length ∧ cs.length ≤ M ∧ s = sumSummaries cs ∧ lc = sumLeafCounts cs ∧
        ∀ c ∈ cs, c.depth + 1 = d ∧ NodeT.invB m M c = true := by
  simp only [NodeT.invB, Bool.and_eq_true, decide_eq_true_eq, allInvB_iff, and_assoc]

theorem fromChildren_depth {L : Type} (d : Nat) (g : List (NodeT L))
    (hne : g ≠ []) (hd : ∀ n ∈ g, n.depth = d) :
    (Inode.fromChildren g).depth = d + 1 := by
  match g, hne with
  | c :: cs, _ =>
    show childrenDepth (c :: cs) = d + 1
    simp only [childrenDepth]
    rw [hd c (List.mem_cons_self c cs)]

theorem fromChildren_invB {L : Type} (m M d : Nat) (g : List (NodeT L))
    (hm : 1 ≤ m) (hlen : m ≤ g.length) (hle : g.length ≤ M)
    (hd : ∀ n ∈ g, n.depth = d) (hi : ∀ n ∈ g, NodeT.invB m M n = true) :
    NodeT.invB m M (Inode.fromChildren g) = true := by
  rw [Inode.fromChildren, invB_internal_iff]
  refine ⟨hlen, hle, rfl, rfl, fun c hc => ⟨?_, hi c hc⟩⟩
  have hne : g ≠ [] := by
    intro hnil
    subst hnil
    simp at hlen
    omega
  match g, hne with
  | c0 :: cs, _ =>
    simp only [childrenDepth]
    rw [hd c hc, hd c0 (List.mem_cons_self c0 cs)]

theorem segmentNodes_depth_inv {L : Type} (N d : Nat) (hN : 4 ≤ N)
    (ns : List (NodeT L)) (hlen : N / 2 ≤ ns.length)
    (hd : ∀ n ∈ ns, n.depth = d) (hi : ∀ n ∈ ns, NodeT.invB (N / 2) N n = true) :
    ∀ n ∈ segmentNodes N ns,
      n.depth = d + 1 ∧ NodeT.invB (N / 2) N n = true := by
  intro n hn
  simp only [segmentNodes, List.mem_map] at hn
  obtain ⟨g, hg, rfl⟩ := hn
  have hgroups := segmentFuel_groups (N / 2) N (by omega) (by omega) (by omega)
    ns.length ns (le_refl _) hlen g hg
  have hjoin := segmentFuel_join (N / 2) N (by omega) (by omega)
    ns.length ns (le_refl _)
  have hsub : ∀ x ∈ g, x ∈ ns := by
    intro x hx
    rw [← hjoin]
    exact List.mem_flatten.mpr ⟨g, hg, hx⟩
  have hgd : ∀ x ∈ g, x.depth = d := fun x hx => hd x (hsub x hx)
  have hgi : ∀ x ∈ g, NodeT.invB (N / 2) N x = true := fun x hx => hi x (hsub x hx)
  have hne : g ≠ [] := by
    intro hnil
    subst hnil
    simp at hgroups
    omega
  exact ⟨fromChildren_depth d g hne hgd,
    fromChildren_invB (N / 2) N d g (by omega) hgroups.1 hgroups.2 hgd hgi⟩

theorem segmentNodes_length_lt {L : Type} (N : Nat) (hN : 4 ≤ N)
    (ns : List (NodeT L)) (hNl : N < ns.length) :
    (segmentNodes N ns).length < ns.length := by
  simp only [segmentNodes, List.length_map]
  exact segmentFuel_length_lt (N / 2) N (by omega) (by omega) (by omega)
    ns.length ns (le_refl _) hNl

theorem segmentNodes_two_le {L : Type} (N : Nat) (hN : 4 ≤ N)
    (ns : List (NodeT L)) (hNl : N < ns.length) :
    2 ≤ (segmentNodes N ns).length := by
  simp only [segmentNodes, List.length_map]
  exact segmentFuel_two_le (N / 2) N (by omega) (by omega)
    ns.length ns (le_refl _) hNl

theorem fromNodesLoop_good {L : Type} (N : Nat) (hN : 4 ≤ N) :
    ∀ (fuel : Nat) (ns : List (NodeT L)) (d : Nat), ns.length ≤ fuel →
      2 ≤ ns.length → (∀ n ∈ ns, n.depth = d) →
      (∀ n ∈ ns, NodeT.invB (N / 2) N n = true) →
      ∃ d2, 2 ≤ (fromNodesLoop N fuel ns).length ∧
        (fromNodesLoop N fuel ns).length ≤ N ∧
        (∀ n ∈ fromNodesLoop N fuel ns, n.depth = d2) ∧
        (∀ n ∈ fromNodesLoop N fuel ns, NodeT.invB (N / 2) N n = true) := by
  intro fuel
  induction fuel with
  | zero => intro ns d h h2 _ _; omega
  | succ fuel ih =>
    intro ns d h h2 hd hi
    simp only [fromNodesLoop]
    split
    · rename_i hNl
      have hpass := segmentNodes_depth_inv N d hN ns (by omega) hd hi
      exact ih (segmentNodes N ns) (d + 1)
        (by have := segmentNodes_length_lt N hN ns hNl; omega)
        (segmentNodes_two_le N hN ns hNl)
        (fun n hn => (hpass n hn).1) (fun n hn => (hpass n hn).2)
    · exact ⟨d, h2, by omega, hd, hi⟩

theorem fromLeaves_root_good {L : Type} (N : Nat) (sz : L → ChunkSummary)
    (leaves : List L) (hN : 4 ≤ N) (h2 : 2 ≤ leaves.length) :
    ∃ cs s d lc, Inode.fromLeaves N sz leaves = .internal cs s d lc ∧
      2 ≤ cs.length ∧ cs.length ≤ N ∧ s = sumSummaries cs ∧
      lc = sumLeafCounts cs ∧ (∀ c ∈ cs, c.depth + 1 = d) ∧
      (∀ c ∈ cs, NodeT.invB (N / 2) N c = true) := by
  unfold Inode.fromLeaves Inode.fromNodes
  set ns := leaves.map (Lnode.fromValue sz) with hns
  have hlen : ns.length = leaves.length := List.length_map _ _
  have hd : ∀ n ∈ ns, n.depth = 0 := by
    intro n hn
    simp only [hns, List.mem_map] at hn
    obtain ⟨v, _, rfl⟩ := hn
    rfl
  have hi : ∀ n ∈ ns, NodeT.invB (N / 2) N n = true := by
    intro n hn
    simp only [hns, List.mem_map] at hn
    obtain ⟨v, _, rfl⟩ := hn
    rfl
  obtain ⟨d2, hg2, hgN, hgd, hgi⟩ :=
    fromNodesLoop_good N hN ns.length ns 0 (le_refl _) (by omega) hd hi
  set res := fromNodesLoop N ns.length ns with hres
  refine ⟨res, sumSummaries res, childrenDepth res, sumLeafCounts res, rfl,
    hg2, hgN, rfl, rfl, ?_, hgi⟩
  intro c hc
  have hne : res ≠ [] := by
    intro hnil
    rw [hnil] at hg2
    simp at hg2
  match res, hne, hc, hgd with
  | c0 :: cs0, _, hc, hgd =>
    simp only [childrenDepth]
    rw [hgd c hc, hgd c0 (List.mem_cons_self c0 cs0)]

theorem sumSummaries_append {L : Type} (l1 l2 : List (NodeT L)) :
    sumSummaries (l1 ++ l2) = sumSummaries l1 + sumSummaries l2 := by
  unfold sumSummaries
  rw [List.foldl_append, foldl_add_init]

theorem sumLeafCounts_append {L : Type} (l1 l2 : List (NodeT L)) :
    sumLeafCounts (l1 ++ l2) = sumLeafCounts l1 + sumLeafCounts l2 := by
  unfold sumLeafCounts
  rw [List.foldl_append, foldl_add_init]

theorem ChunkSummary.sub_sub (s a b : ChunkSummary) : s - a - b = s - (a + b) := by
  simp only [ChunkSummary.sub_def, ChunkSummary.add_def, Nat.sub_sub]

theorem foldl_sub_summaries {L : Type} (cs : List (NodeT L)) (s : ChunkSummary) :
    cs.foldl (fun a c => a - c.cachedSummary) s = s - sumSummaries cs := by
  induction cs generalizing s with
  | nil =>
    cases s
    simp [List.foldl_nil, sumSummaries_nil, ChunkSummary.sub_def,
      ChunkSummary.zero_def]
  | cons c cs ih =>
    simp only [List.foldl_cons]
    rw [ih, sumSummaries_cons, ← ChunkSummary.sub_sub]

theorem foldl_sub_leafCounts {L : Type} (cs : List (NodeT L)) (n : Nat) :
    cs.foldl (fun a c => a - c.cachedLeafCount) n = n - sumLeafCounts cs := by
  induction cs generalizing n with
  | nil => simp [sumLeafCounts_nil]
  | cons c cs ih =>
    simp only [List.foldl_cons]
    rw [ih, sumLeafCounts_cons, Nat.sub_sub]

theorem take_append_drop_split {α : Type} (l : List α) (start stop : Nat)
    (h1 : start ≤ stop) :
    l = l.take start ++ (l.take stop).drop start ++ l.drop stop := by
  have h2 : (l.take stop).take start = l.take start := by
    rw [List.take_take]
    congr 1
    omega
  conv =>
    lhs
    rw [← List.take_append_drop stop l,
      ← List.take_append_drop start (l.take stop)]
  rw [h2]

mutual

/-- Decidable form of the cached-summary hypothesis of the claim about
Node::summarize: every internal node in the subtree caches the sum of its
children's cached summaries. -/
def NodeT.sumInvB {L : Type} : NodeT L → Bool
  | .leaf _ _ => true
  | .internal cs s _ _ => decide (s = sumSummaries cs) && NodeT.allSumInvB cs

/-- Conjunction of sumInvB over a list of nodes. -/
def NodeT.allSumInvB {L : Type} : List (NodeT L) → Bool
  | [] => true
  | c :: cs => NodeT.sumInvB c && NodeT.allSumInvB cs

end

mutual

theorem summarize_eq_cached {L : Type} (n : NodeT L) (h : NodeT.sumInvB n = true) :
    n.summarize = n.cachedSummary := by
  match n with
  | .leaf _ _ => rfl
  | .internal [] s d lc =>
    simp only [NodeT.sumInvB, Bool.and_eq_true, decide_eq_true_eq] at h
    simp only [NodeT.summarize, NodeT.cachedSummary, h.1, sumSummaries_nil]
  | .internal [c] s d lc =>
    simp only [NodeT.sumInvB, NodeT.allSumInvB, Bool.and_eq_true,
      decide_eq_true_eq] at h
    simp only [NodeT.summarize, NodeT.cachedSummary, h.1, sumSummaries_cons,
      sumSummaries_nil, add_zero]
    exact summarize_eq_cached c h.2.1
  | .internal (c1 :: c2 :: rest) s d lc =>
    simp only [NodeT.sumInvB, NodeT.allSumInvB, Bool.and_eq_true,
      decide_eq_true_eq] at h
    simp only [NodeT.summarize, NodeT.cachedSummary, h.1]
    rw [sumSummarize_eq rest _ h.2.2.2,
      summarize_eq_cached c1 h.2.1, summarize_eq_cached c2 h.2.2.1,
      sumSummaries_cons, sumSummaries_cons, add_assoc]

theorem sumSummarize_eq {L : Type} (cs : List (NodeT L)) (acc : ChunkSummary)
    (h : NodeT.allSumInvB cs = true) :
    NodeT.sumSummarize cs acc = acc + sumSummaries cs := by
  match cs with
  | [] => simp [NodeT.sumSummarize, sumSummaries_nil]
  | c :: cs =>
    simp only [NodeT.allSumInvB, Bool.and_eq_true] at h
    simp only [NodeT.sumSummarize]
    rw [sumSummarize_eq cs _ h.2, summarize_eq_cached c h.1,
      sumSummaries_cons, add_assoc]

end

/-- A metric over chunk leaves, per §4.2 of the spec (tree/traits.rs is
not part of src): a measure on summaries with additive zero, plus the
splitting function a splittable metric provides, locating the byte
boundary inside a leaf whose prefix measures a given offset. -/
structure MetricM where
  measure : ChunkSummary → Nat
  splitLeaf : List Byte → Nat → Nat

mutual

/-- The leaves of a subtree in order (the depth-first walk that
Tree::leaves performs). -/
def NodeT.leavesOf {L : Type} : NodeT L → List L
  | .leaf v _ => [v]
  | .internal cs _ _ _ => NodeT.leavesOfList cs

/-- Concatenation of the leaves of a list of subtrees. -/
def NodeT.leavesOfList {L : Type} : List (NodeT L) → List L
  | [] => []
  | c :: cs => NodeT.leavesOf c ++ NodeT.leavesOfList cs

end

/-- Modelled from the spec: the observable result of a TreeSlice
(tree/tree_slice.rs is not part of src) — the leaf slices it represents
in order, its summary, and its leaf count. -/
structure TreeSliceModel where
  leaves : List (List Byte)
  summary : ChunkSummary
  leafCount : Nat
deriving DecidableEq

/-- Modelled from the spec: TreeSlice::empty, the slice whose summary is
the identity summary and whose leaf count is 0. -/
def TreeSliceModel.empty : TreeSliceModel := ⟨[], 0, 0⟩

/-- Modelled from the spec, §4.6: collect whole leaves until range.end is
exhausted, splitting the leaf that range.end falls within. -/
def takeSliceLeaves (M : MetricM) : List (List Byte) → Nat → List (List Byte)
  | [], _ => []
  | lf :: rest, e =>
    let m := M.measure (summarizeChunk lf)
    if e ≤ m then [lf.take (M.splitLeaf lf e)]
    else lf :: takeSliceLeaves M rest (e - m)

/-- Modelled from the spec, §4.6: descend (here: walk the leaves,
accumulating measure) until range.start falls within a leaf, keep the
sub-slice after the dropped prefix, then continue until range.end falls
within a leaf, keeping the sub-slice before the dropped suffix; when both
ends fall within the same leaf the slice is the intersection. -/
def sliceLeaves (M : MetricM) : List (List Byte) → Nat → Nat → List (List Byte)
  | [], _, _ => []
  | lf :: rest, start, e =>
    let m := M.measure (summarizeChunk lf)
    if m ≤ start then sliceLeaves M rest (start - m) (e - m)
    else if e ≤ m then
      [(lf.take (M.splitLeaf lf e)).drop (M.splitLeaf lf start)]
    else lf.drop (M.splitLeaf lf start) :: takeSliceLeaves M rest (e - m)

/-- Modelled from the spec: TreeSlice::from_range_in_node per §4.6, at
the level of its observable contract — the leaf slices between the two
ends of the range, a summary equal to the summary of the concrete text
represented, and the number of (partial) leaves. -/
def fromRangeInNode (M : MetricM) (root : NodeT (List Byte)) (start e : Nat) :
    TreeSliceModel :=
  let ls := sliceLeaves M root.leavesOf start e
  ⟨ls, (ls.map summarizeChunk).sum, ls.length⟩

/-- The single panic kind of Tree::slice: one of its three asserts
failing. -/
inductive SliceFail where
  | assertFailed
deriving DecidableEq, Repr

/-- Tree::slice from tree/tree.rs: three asserts in source order, the
empty-range early return, and the delegation to from_range_in_node. -/
def Tree.sliceOp (M : MetricM) (root : NodeT (List Byte)) (start e : Nat) :
    Except SliceFail TreeSliceModel :=
  if ¬ 0 ≤ start then .error .assertFailed
  else if ¬ start ≤ e then .error .assertFailed
  else if ¬ e ≤ M.measure root.cachedSummary then .error .assertFailed
  else if start = e then .ok TreeSliceModel.empty
  else .ok (fromRangeInNode M root start e)

theorem balance_left_concat (minB : Nat) (l r : List Byte) :
    (balance_left_with_right minB l r).1 ++ (balance_left_with_right minB l r).2 =
      l ++ r := by
  simp only [balance_left_with_right, List.append_assoc, List.take_append_drop]

theorem balance_left_fst_len (minB : Nat) (l r : List Byte)
    (h : minB ≤ l.length + r.length) :
    minB ≤ (balance_left_with_right minB l r).1.length := by
  simp only [balance_left_with_right, List.length_append, List.length_take]
  have hs1 : minB - l.length ≤ extendToBoundary r (minB - l.length) :=
    extendToBoundary_ge r (minB - l.length)
  split <;> omega

theorem balance_right_concat (minB : Nat) (l r : List Byte) :
    (balance_right_with_left minB l r).1 ++ (balance_right_with_left minB l r).2 =
      l ++ r := by
  simp only [balance_right_with_left, ← List.append_assoc, List.take_append_drop]

theorem balance_right_snd_len (minB : Nat) (l r : List Byte)
    (h : minB ≤ l.length + r.length) :
    minB ≤ (balance_right_with_left minB l r).2.length := by
  simp only [balance_right_with_left, List.length_append, List.length_drop]
  have hs1 : retractToBoundary l (l.length - (minB - r.length)) ≤
      l.length - (minB - r.length) :=
    retractToBoundary_le l (l.length - (minB - r.length))
  split <;> omega

theorem ropeChunkNext_none_iff (maxB : Nat) (s : List Byte) :
    ropeChunkNext maxB s = none ↔ s.length = 0 := by
  unfold ropeChunkNext
  split
  · simp only [true_iff]
    assumption
  · rename_i hne
    split <;> simp <;> exact fun hnil => hne (by rw [hnil]; rfl)

theorem ropeChunks_ne_nil (maxB : Nat) (s : List Byte) (h : 1 ≤ s.length) :
    1 ≤ (ropeChunks maxB s).length := by
  unfold ropeChunks
  simp only [ropeChunksFuel]
  cases hn : ropeChunkNext maxB s with
  | none =>
    rw [ropeChunkNext_none_iff] at hn
    omega
  | some p => simp

/-- C1: the claim states that RopeChunkIter never splits a CRLF pair — no
yielded chunk ends with CR while the next begins with LF. The code
violates this: on the failing input "abc\r\n" (bytes 97 98 99 13 10) with
the test-mode max_bytes = 4, the yielded chunks are "abc\r" and "\n",
since the guard in RopeChunkIter::next demands at least two bytes after
the cut (len > bytes + 1) instead of one, so the extension is skipped
exactly when the LF is the final byte. This theorem evaluates the
embedded code at the failing input. -/
theorem c1_crlf_split_at_failing_input :
    ropeChunks 4 [97, 98, 99, 13, 10] = [[97, 98, 99, 13], [10]] ∧
    ([97, 98, 99, 13] : List Byte).getLast? = some crByte ∧
    ([10] : List Byte).head? = some lfByte := by decide

/-- C8 counterexample: on the 5-byte input "a🟦" (97 240 159 159 166)
with max_bytes = 4 the reported len is 2 but the iterator yields a single
chunk, because the UTF-8 boundary extension consumes the whole string;
so 2 is not a lower bound on the number of yielded chunks. -/
theorem c8_counterexample :
    4 < ([97, 240, 159, 159, 166] : List Byte).length ∧
    ropeChunkIterLen 4 [97, 240, 159, 159, 166] = 2 ∧
    (ropeChunks 4 [97, 240, 159, 159, 166]).length = 1 := by decide

/-- C8 (amended): for every input longer than max_bytes the reported
ExactSizeIterator length is 2 and the iterator yields at least one chunk;
2 is not in general a lower bound on the number of yielded chunks. -/
theorem c8_len_two_and_at_least_one_chunk (maxB : Nat) (s : List Byte)
    (h : maxB < s.length) :
    ropeChunkIterLen maxB s = 2 ∧ 1 ≤ (ropeChunks maxB s).length := by
  refine ⟨?_, ropeChunks_ne_nil maxB s (by omega)⟩
  simp only [ropeChunkIterLen, if_pos h]

/-- C8 witness: the amended theorem applied to a concrete over-max
input. -/
theorem c8_len_two_and_at_least_one_chunk_witness :
    ropeChunkIterLen 4 [97, 98, 99, 100, 101] = 2 ∧
      1 ≤ (ropeChunks 4 [97, 98, 99, 100, 101]).length :=
  c8_len_two_and_at_least_one_chunk 4 [97, 98, 99, 100, 101] (by decide)

/-- C9 counterexample: feeding the chunk iterator of the empty string to
Tree::from_leaves does not hit the empty-input panic path, contrary to
the claim: the reported len is 1, so the zero-length check passes and the
panic comes from the unwrap in the single-leaf branch instead. -/
theorem c9_counterexample :
    Tree.fromLeavesIter 4 summarizeChunk (ropeChunkIterLen 4 [])
        (ropeChunks 4 []) ≠ Except.error FromLeavesErr.emptyIter := by
  have h : Tree.fromLeavesIter 4 summarizeChunk (ropeChunkIterLen 4 [])
      (ropeChunks 4 []) = Except.error FromLeavesErr.unwrapNone := rfl
  rw [h]
  simp

/-- C9 (amended): on the empty input RopeChunkIter yields zero chunks
(next returns none) while its reported len is 1, and feeding such an
iterator to Tree::from_leaves panics in the single-leaf branch (the
unwrap of a None next), not through the empty-input check. -/
theorem c9_empty_input_behavior :
    ropeChunkNext 4 [] = none ∧ ropeChunkIterLen 4 [] = 1 ∧
      Tree.fromLeavesIter 4 summarizeChunk (ropeChunkIterLen 4 [])
        (ropeChunks 4 []) = Except.error FromLeavesErr.unwrapNone :=
  ⟨rfl, rfl, rfl⟩

/-- C3 counterexample: balance_slices with min_bytes = 2, max_bytes = 4
on the valid UTF-8 inputs "a" and "🟦" returns two chunks whose second is
empty, so the returned pair does not satisfy the fill predicate on both
sides: the claim as stated is false. -/
theorem c3_counterexample :
    balance_slices 2 4 [97] [240, 159, 159, 166] =
      ([97, 240, 159, 159, 166], some []) ∧
    ¬ 2 ≤ ([] : List Byte).length := by decide

/-- C3 (amended): balance_slices always preserves the concatenation of
the two inputs; when it returns two chunks, both are unchanged and meet
min_bytes if both inputs already did, and otherwise the side that was
underfilled is brought up to min_bytes, while the donor side can be left
below min_bytes (even empty) when the UTF-8/CRLF boundary adjustment
moves extra bytes. -/
theorem c3_balance_slices_spec (minB maxB : Nat) (l r : List Byte)
    (hmm : minB ≤ maxB) :
    ∀ c1 o, balance_slices minB maxB l r = (c1, o) →
      (o = none → c1 = l ++ r) ∧
      (∀ c2, o = some c2 →
        c1 ++ c2 = l ++ r ∧
        (minB ≤ l.length ∧ minB ≤ r.length → c1 = l ∧ c2 = r) ∧
        (l.length < minB → minB ≤ c1.length) ∧
        (minB ≤ l.length ∧ r.length < minB → minB ≤ c2.length)) := by
  intro c1 o h
  by_cases h1 : minB ≤ l.length ∧ minB ≤ r.length
  · have hb : balance_slices minB maxB l r = (l, some r) := by
      unfold balance_slices
      rw [if_pos h1]
    rw [hb] at h
    injection h with hA hB
    subst hA
    subst hB
    refine ⟨fun hn => by simp at hn, fun c2 hc2 => ?_⟩
    have : c2 = r := by
      have := hc2.symm
      injection this
    subst this
    exact ⟨rfl, fun _ => ⟨rfl, rfl⟩, fun hl => by omega, fun hr => by omega⟩
  · by_cases h2 : l.length + r.length ≤ maxB
    · have hb : balance_slices minB maxB l r = (l ++ r, none) := by
        unfold balance_slices
        rw [if_neg h1, if_pos h2]
      rw [hb] at h
      injection h with hA hB
      subst hA
      subst hB
      exact ⟨fun _ => rfl, fun c2 hc2 => by simp at hc2⟩
    · by_cases h3 : l.length < minB
      · have hb : balance_slices minB maxB l r =
            ((balance_left_with_right minB l r).1,
              some (balance_left_with_right minB l r).2) := by
          unfold balance_slices
          rw [if_neg h1, if_neg h2, if_pos h3]
        rw [hb] at h
        injection h with hA hB
        subst hA
        subst hB
        refine ⟨fun hn => by simp at hn, fun c2 hc2 => ?_⟩
        have : c2 = (balance_left_with_right minB l r).2 := by
          have := hc2.symm
          injection this
        subst this
        exact ⟨balance_left_concat minB l r, fun hb2 => by omega,
          fun _ => balance_left_fst_len minB l r (by omega),
          fun hb2 => by omega⟩
      · have hb : balance_slices minB maxB l r =
            ((balance_right_with_left minB l r).1,
              some (balance_right_with_left minB l r).2) := by
          unfold balance_slices
          rw [if_neg h1, if_neg h2, if_neg h3]
        rw [hb] at h
        injection h with hA hB
        subst hA
        subst hB
        refine ⟨fun hn => by simp at hn, fun c2 hc2 => ?_⟩
        have : c2 = (balance_right_with_left minB l r).2 := by
          have := hc2.symm
          injection this
        subst this
        exact ⟨balance_right_concat minB l r, fun hb2 => by omega,
          fun hb2 => by omega,
          fun hb2 => balance_right_snd_len minB l r (by omega)⟩

/-- C3 witness: the amended theorem applied to a concrete input pair
going through the left-refill branch. -/
theorem c3_balance_slices_spec_witness :
    ([97, 98] : List Byte) ++ [99, 100, 101] =
      ([97] : List Byte) ++ [98, 99, 100, 101] ∧
    2 ≤ ([97, 98] : List Byte).length :=
  have h := c3_balance_slices_spec 2 4 [97] [98, 99, 100, 101] (by decide)
    [97, 98] (some [99, 100, 101]) (by decide)
  have h2 := (h.2 [99, 100, 101] rfl)
  ⟨h2.1, h2.2.2.1 (by decide)⟩

example : NodeT.sumInvB (NodeT.internal [NodeT.leaf ([97] : List Byte) ⟨1, 0⟩]
    ⟨1, 0⟩ 1 1) = true := by decide

example : NodeT.summarize (NodeT.internal [NodeT.leaf ([97] : List Byte) ⟨1, 0⟩]
    ⟨1, 0⟩ 1 1) = ⟨1, 0⟩ := rfl

theorem fromLeaves_of_two_le {L : Type} (N : Nat) (sz : L → ChunkSummary)
    (leaves : List L) (h2 : 2 ≤ leaves.length) :
    Tree.fromLeaves N sz leaves = .ok (Inode.fromLeaves N sz leaves) := by
  unfold Tree.fromLeaves Tree.fromLeavesIter
  rw [if_neg (by omega), if_neg (by omega)]

/-- C2 counterexample: with fanout 6 (min_children = 3) Tree::from_leaves
on two leaves returns a root inode with only 2 children, violating the
claimed lower bound min_children ≤ number of children for the root. -/
theorem c2_counterexample :
    Tree.fromLeaves 6 summarizeChunk [[97], [98]] =
      .ok (NodeT.internal [NodeT.leaf [97] ⟨1, 0⟩, NodeT.leaf [98] ⟨1, 0⟩]
        ⟨2, 0⟩ 1 2) ∧
    ¬ 6 / 2 ≤ ([NodeT.leaf ([97] : List Byte) ⟨1, 0⟩,
      NodeT.leaf [98] ⟨1, 0⟩]).length := by
  constructor
  · rfl
  · decide

/-- C2 (amended): after Tree::from_leaves returns (on at least two leaves,
fanout N ≥ 4), the root is an internal node with between 2 and
max_children children — meeting min_children whenever min_children = 2,
but possibly fewer than min_children children when N ≥ 6 — whose cached
summary and leaf count are the sums over its children and whose children
all sit at depth one below it; and every internal node strictly below the
root satisfies the full assert_invariants conditions, min_children ≤
children ≤ max_children included. -/
theorem c2_from_leaves_invariants {L : Type} (N : Nat) (sz : L → ChunkSummary)
    (leaves : List L) (hN : 4 ≤ N) (h2 : 2 ≤ leaves.length) :
    ∃ cs s d lc,
      Tree.fromLeaves N sz leaves = .ok (NodeT.internal cs s d lc) ∧
      2 ≤ cs.length ∧ cs.length ≤ N ∧
      s = sumSummaries cs ∧ lc = sumLeafCounts cs ∧
      (∀ c ∈ cs, c.depth + 1 = d) ∧
      (∀ c ∈ cs, NodeT.invB (N / 2) N c = true) := by
  obtain ⟨cs, s, d, lc, hroot, hg⟩ := fromLeaves_root_good N sz leaves hN h2
  exact ⟨cs, s, d, lc, by rw [fromLeaves_of_two_le N sz leaves h2, hroot], hg⟩

/-- C2 witness: the amended theorem applied to three chunk leaves at
fanout 4. -/
theorem c2_from_leaves_invariants_witness :
    ∃ cs s d lc,
      Tree.fromLeaves 4 summarizeChunk [[97], [98], [99]] =
        .ok (NodeT.internal cs s d lc) ∧
      2 ≤ cs.length ∧ cs.length ≤ 4 ∧
      s = sumSummaries cs ∧ lc = sumLeafCounts cs ∧
      (∀ c ∈ cs, c.depth + 1 = d) ∧
      (∀ c ∈ cs, NodeT.invB (4 / 2) 4 c = true) :=
  c2_from_leaves_invariants 4 summarizeChunk [[97], [98], [99]]
    (by decide) (by decide)

/-- C4: Tree::from_leaves on an honest iterator errors exactly on empty
input (through the explicit empty-iterator panic), returns a single-leaf
root holding the value on one leaf, and otherwise returns the internal
node built by Inode::from_leaves. -/
theorem c4_from_leaves_cases {L : Type} (N : Nat) (sz : L → ChunkSummary)
    (leaves : List L) :
    ((∃ e, Tree.fromLeaves N sz leaves = .error e) ↔ leaves = []) ∧
    (leaves = [] →
      Tree.fromLeaves N sz leaves = .error FromLeavesErr.emptyIter) ∧
    (∀ v, leaves = [v] →
      Tree.fromLeaves N sz leaves = .ok (NodeT.leaf v (sz v))) ∧
    (2 ≤ leaves.length →
      Tree.fromLeaves N sz leaves = .ok (Inode.fromLeaves N sz leaves)) := by
  match leaves with
  | [] =>
    refine ⟨⟨fun _ => rfl, fun _ => ⟨.emptyIter, rfl⟩⟩, fun _ => rfl,
      fun v hv => by simp at hv, fun h => by simp at h⟩
  | [v] =>
    refine ⟨⟨fun ⟨e, he⟩ => ?_, fun h => by simp at h⟩, fun h => by simp at h,
      fun w hw => ?_, fun h => by simp at h⟩
    · rw [show Tree.fromLeaves N sz [v] = .ok (NodeT.leaf v (sz v)) from rfl] at he
      exact absurd he (by simp)
    · have hv : v = w := by simpa using hw
      subst hv
      rfl
  | v :: w :: rest =>
    have hlen : 2 ≤ (v :: w :: rest).length := by simp
    refine ⟨⟨fun ⟨e, he⟩ => ?_, fun h => by simp at h⟩, fun h => by simp at h,
      fun u hu => by simp at hu, fun _ => fromLeaves_of_two_le N sz _ hlen⟩
    rw [fromLeaves_of_two_le N sz _ hlen] at he
    exact absurd he (by simp)

/-- C4 witness: the theorem applied to a concrete two-leaf input,
extracting the two-or-more-leaves branch. -/
theorem c4_from_leaves_cases_witness :
    Tree.fromLeaves 4 summarizeChunk [[97], [98]] =
      .ok (Inode.fromLeaves 4 summarizeChunk [[97], [98]]) :=
  (c4_from_leaves_cases 4 summarizeChunk [[97], [98]]).2.2.2 (by decide)

/-- The children a node owns: none for a leaf, the children array for an
inode. -/
def NodeT.childrenOf {L : Type} : NodeT L → List (NodeT L)
  | .leaf _ _ => []
  | .internal cs _ _ _ => cs

/-- C6: on an input of at least min_children nodes of equal depth,
ChildSegmenter yields inodes with between min_children and max_children
children, one depth above the input, whose children concatenated in
yield order are exactly the input; and each step takes max_children when
more than max_children remain and the rest would still hold at least
min_children, takes remaining − min_children when more than max_children
remain otherwise, and takes everything otherwise (the segTake rule,
unfolded one step at a time). -/
theorem c6_child_segmenter_spec {L : Type} (N d : Nat) (l : List (NodeT L))
    (hN : 4 ≤ N) (hlen : N / 2 ≤ l.length) (hd : ∀ n ∈ l, n.depth = d) :
    (∀ ino ∈ segmentNodes N l,
      N / 2 ≤ ino.childrenOf.length ∧ ino.childrenOf.length ≤ N ∧
        ino.depth = d + 1) ∧
    ((segmentNodes N l).map NodeT.childrenOf).flatten = l ∧
    (l ≠ [] → childSegments (N / 2) N l =
      l.take (segTake (N / 2) N l.length) ::
        childSegments (N / 2) N (l.drop (segTake (N / 2) N l.length))) := by
  have hmap : (segmentNodes N l).map NodeT.childrenOf = childSegments (N / 2) N l := by
    simp only [segmentNodes, List.map_map]
    have : NodeT.childrenOf ∘ Inode.fromChildren = (id : List (NodeT L) → _) := by
      funext g
      rfl
    rw [this, List.map_id]
  have hjoin : (childSegments (N / 2) N l).flatten = l :=
    segmentFuel_join (N / 2) N (by omega) (by omega) l.length l (le_refl _)
  refine ⟨?_, by rw [hmap]; exact hjoin, ?_⟩
  · intro ino hino
    simp only [segmentNodes, List.mem_map] at hino
    obtain ⟨g, hg, rfl⟩ := hino
    have hgrp := segmentFuel_groups (N / 2) N (by omega) (by omega) (by omega)
      l.length l (le_refl _) hlen g hg
    have hsub : ∀ x ∈ g, x ∈ l := by
      intro x hx
      rw [← hjoin]
      exact List.mem_flatten.mpr ⟨g, hg, hx⟩
    have hne : g ≠ [] := by
      intro hnil
      subst hnil
      simp at hgrp
      omega
    refine ⟨?_, ?_, fromChildren_depth d g hne (fun x hx => hd x (hsub x hx))⟩
    · exact hgrp.1
    · exact hgrp.2
  · intro hne
    match l, hne with
    | x :: xs, _ => exact childSegments_step (N / 2) N (by omega) (by omega) x xs

/-- C6 witness: the theorem applied to four equal-depth leaves at
fanout 4. -/
theorem c6_child_segmenter_spec_witness :
    (∀ ino ∈ segmentNodes 4 [NodeT.leaf ([97] : List Byte) ⟨1, 0⟩,
        NodeT.leaf [98] ⟨1, 0⟩, NodeT.leaf [99] ⟨1, 0⟩],
      4 / 2 ≤ ino.childrenOf.length ∧ ino.childrenOf.length ≤ 4 ∧
        ino.depth = 0 + 1) ∧
    ((segmentNodes 4 [NodeT.leaf ([97] : List Byte) ⟨1, 0⟩,
        NodeT.leaf [98] ⟨1, 0⟩, NodeT.leaf [99] ⟨1, 0⟩]).map
      NodeT.childrenOf).flatten =
      [NodeT.leaf ([97] : List Byte) ⟨1, 0⟩, NodeT.leaf [98] ⟨1, 0⟩,
        NodeT.leaf [99] ⟨1, 0⟩] :=
  have h := c6_child_segmenter_spec 4 0
    [NodeT.leaf ([97] : List Byte) ⟨1, 0⟩, NodeT.leaf [98] ⟨1, 0⟩,
      NodeT.leaf [99] ⟨1, 0⟩] (by omega) (by simp)
    (by intro n hn; simp at hn; rcases hn with h | h | h <;> subst h <;> rfl)
  ⟨h.1, h.2.1⟩

/-- C7: Inode::drain(start..stop) followed by dropping the iterator
removes exactly the children in the range, keeping the rest in order;
the cached summary and leaf count drop by exactly the sums over the
drained children (the cached-sum invariant is preserved on the result),
and the new length is the old one minus the size of the range. -/
theorem c7_drain_spec {L : Type} (cs : List (NodeT L)) (s : ChunkSummary)
    (d lc start stop : Nat) (hs : s = sumSummaries cs)
    (hlc : lc = sumLeafCounts cs) (h1 : start ≤ stop) (h2 : stop ≤ cs.length) :
    (Inode.drainRange cs s d lc start stop).1 = (cs.take stop).drop start ∧
    ∃ cs2 s2 lc2,
      (Inode.drainRange cs s d lc start stop).2 = NodeT.internal cs2 s2 d lc2 ∧
      cs2 = cs.take start ++ cs.drop stop ∧
      s2 + sumSummaries ((cs.take stop).drop start) = s ∧
      s2 = sumSummaries cs2 ∧
      lc2 + sumLeafCounts ((cs.take stop).drop start) = lc ∧
      lc2 = sumLeafCounts cs2 ∧
      cs2.length = cs.length - (stop - start) := by
  have hsplit := take_append_drop_split cs start stop h1
  have hsum : s = sumSummaries (cs.take start) +
      sumSummaries ((cs.take stop).drop start) + sumSummaries (cs.drop stop) := by
    rw [hs]
    conv =>
      lhs
      rw [hsplit]
    rw [sumSummaries_append, sumSummaries_append]
  have hlcsum : lc = sumLeafCounts (cs.take start) +
      sumLeafCounts ((cs.take stop).drop start) + sumLeafCounts (cs.drop stop) := by
    rw [hlc]
    conv =>
      lhs
      rw [hsplit]
    rw [sumLeafCounts_append, sumLeafCounts_append]
  refine ⟨rfl, cs.take start ++ cs.drop stop,
    s - sumSummaries ((cs.take stop).drop start),
    lc - sumLeafCounts ((cs.take stop).drop start), ?_, rfl, ?_, ?_, ?_, ?_, ?_⟩
  · simp only [Inode.drainRange]
    rw [foldl_sub_summaries, foldl_sub_leafCounts]
  · rw [hsum]
    simp only [ChunkSummary.sub_def, ChunkSummary.add_def, ChunkSummary.mk.injEq]
    omega
  · rw [hsum, sumSummaries_append]
    simp only [ChunkSummary.sub_def, ChunkSummary.add_def, ChunkSummary.mk.injEq]
    omega
  · rw [hlcsum]
    omega
  · rw [hlcsum, sumLeafCounts_append]
    omega
  · rw [List.length_append, List.length_take, List.length_drop]
    omega

/-- C7 witness: the drain theorem applied to a concrete three-child
inode, draining the middle child. -/
theorem c7_drain_spec_witness :
    (Inode.drainRange [NodeT.leaf ([97] : List Byte) ⟨1, 0⟩,
        NodeT.leaf [10] ⟨1, 1⟩, NodeT.leaf [99] ⟨1, 0⟩]
      (sumSummaries [NodeT.leaf ([97] : List Byte) ⟨1, 0⟩,
        NodeT.leaf [10] ⟨1, 1⟩, NodeT.leaf [99] ⟨1, 0⟩]) 1
      (sumLeafCounts [NodeT.leaf ([97] : List Byte) ⟨1, 0⟩,
        NodeT.leaf [10] ⟨1, 1⟩, NodeT.leaf [99] ⟨1, 0⟩]) 1 2).1 =
      (([NodeT.leaf ([97] : List Byte) ⟨1, 0⟩, NodeT.leaf [10] ⟨1, 1⟩,
        NodeT.leaf [99] ⟨1, 0⟩]).take 2).drop 1 :=
  (c7_drain_spec [NodeT.leaf ([97] : List Byte) ⟨1, 0⟩,
    NodeT.leaf [10] ⟨1, 1⟩, NodeT.leaf [99] ⟨1, 0⟩] _ 1 _ 1 2
    rfl rfl (by omega) (by simp)).1

/-- C5: Tree::slice panics exactly when one of its three asserts fails —
that is, unless zero ≤ start ≤ end ≤ measure(summary) — and on an empty
in-range range it returns the constant empty TreeSlice (identity summary,
leaf count 0), a value independent of the tree, so no descent happens. -/
theorem c5_slice_panic_and_empty_range (M : MetricM) (root : NodeT (List Byte))
    (start e : Nat) :
    ((∃ err, Tree.sliceOp M root start e = .error err) ↔
      ¬ (0 ≤ start ∧ start ≤ e ∧ e ≤ M.measure root.cachedSummary)) ∧
    (start = e → e ≤ M.measure root.cachedSummary →
      Tree.sliceOp M root start e = .ok ⟨[], 0, 0⟩) := by
  unfold Tree.sliceOp
  by_cases h1 : start ≤ e
  · by_cases h2 : e ≤ M.measure root.cachedSummary
    · by_cases h3 : start = e <;>
        simp [h1, h2, h3, TreeSliceModel.empty]
    · simp only [h1, h2]
      simp
      exact ⟨.assertFailed, trivial⟩
  · have h3 : ¬ start = e := fun hc => h1 (le_of_eq hc)
    simp only [h1, h3]
    simp
    exact ⟨.assertFailed, trivial⟩

/-- C5 witness: the theorem applied to a one-leaf tree with the byte
metric, slicing the empty range 1..1. -/
theorem c5_slice_panic_and_empty_range_witness :
    Tree.sliceOp ⟨ChunkSummary.bytes, fun _ o => o⟩
      (NodeT.leaf [97, 98] ⟨2, 0⟩) 1 1 = .ok ⟨[], 0, 0⟩ :=
  (c5_slice_panic_and_empty_range ⟨ChunkSummary.bytes, fun _ o => o⟩
    (NodeT.leaf [97, 98] ⟨2, 0⟩) 1 1).2 rfl (by decide)

/-- C10: for every node whose internal nodes each cache the sum of their
children's cached summaries, the recursive recomputation Node::summarize
agrees with the cached summary (Lnode's field on leaves, Inode's field on
internal nodes): the cached and recomputed summaries are equivalent. -/
theorem c10_summarize_eq_cached_summary {L : Type} (n : NodeT L)
    (h : NodeT.sumInvB n = true) : n.summarize = n.cachedSummary :=
  summarize_eq_cached n h

/-- C10 witness: the theorem applied to a concrete two-level tree. -/
theorem c10_summarize_eq_cached_summary_witness :
    NodeT.summarize (NodeT.internal
      [NodeT.internal [NodeT.leaf ([97] : List Byte) ⟨1, 0⟩,
        NodeT.leaf [10] ⟨1, 1⟩] ⟨2, 1⟩ 1 2,
       NodeT.internal [NodeT.leaf [99] ⟨1, 0⟩,
        NodeT.leaf [100] ⟨1, 0⟩] ⟨2, 0⟩ 1 2] ⟨4, 1⟩ 2 4) =
    NodeT.cachedSummary (NodeT.internal
      [NodeT.internal [NodeT.leaf ([97] : List Byte) ⟨1, 0⟩,
        NodeT.leaf [10] ⟨1, 1⟩] ⟨2, 1⟩ 1 2,
       NodeT.internal [NodeT.leaf [99] ⟨1, 0⟩,
        NodeT.leaf [100] ⟨1, 0⟩] ⟨2, 0⟩ 1 2] ⟨4, 1⟩ 2 4) :=
  c10_summarize_eq_cached_summary _ (by decide)
